import Mathlib

/-! # Shallow embedding of the transaction write-set preparation core

Embedding of core/ledger/kvledger/txmgmt/validation/tx_ops.go: the TxOps
data model, its mutation primitives, the RWSet projection applyTxRwset, the
preceding-state resolver retrieveLatestState / retrieveLatestMetadata, and
the merge stage prepareTxOps.

Modelling conventions:
* byte slices are modelled as String (the core only stores them, compares
  them and splits them on the underscore character);
* nilable Go pointers and slices are modelled with Option;
* the uint8 flag field is a Nat reduced modulo 256 at each update, since the
  source updates it with the += operator on a uint8;
* a Go map is modelled as an association list with unique keys, with map
  iteration taken in list order (the source result does not depend on the
  iteration order);
* fallible calls return Except String;
* the process-level toggles localconfig.LineageSupported and
  localconfig.IsOCC are passed explicitly as a LocalConfig value, and the
  external serializer statemetadata.Serialize (an opaque collaborator of
  this core) as a function parameter.
-/

namespace TxValidation

/-- Height of a committed transaction, from version.Height. -/
structure Version where
  blockNum : Nat
  txNum : Nat
deriving DecidableEq

/-- A read record of a KV read-write set (kvrwset.KVRead); the version
pointer is nilable. -/
structure KVRead where
  key : String
  version : Option Version
deriving DecidableEq

/-- A write record of a KV read-write set (kvrwset.KVWrite). -/
structure KVWrite where
  key : String
  value : String
  isDelete : Bool
deriving DecidableEq

/-- A single metadata entry (kvrwset.KVMetadataEntry); opaque to this core,
it is only passed to the serializer. -/
structure KVMetadataEntry where
  name : String
  value : String
deriving DecidableEq

/-- A metadata write (kvrwset.KVMetadataWrite); Entries is a nilable slice,
so a present-but-empty slice is distinct from an absent one. -/
structure KVMetadataWrite where
  key : String
  entries : Option (List KVMetadataEntry)
deriving DecidableEq

/-- A hashed write of a private collection (kvrwset.KVWriteHash). -/
structure KVWriteHash where
  keyHash : String
  valueHash : String
  isDelete : Bool
deriving DecidableEq

/-- A hashed metadata write (kvrwset.KVMetadataWriteHash). -/
structure KVMetadataWriteHash where
  keyHash : String
  entries : Option (List KVMetadataEntry)
deriving DecidableEq

/-- The hashed read-write set of one collection (the parts of
kvrwset.HashedRWSet consumed by tx_ops.go). -/
structure HashedRwSet where
  hashedWrites : List KVWriteHash
  metadataWrites : List KVMetadataWriteHash
deriving DecidableEq

/-- rwsetutil.CollHashedRwSet. -/
structure CollHashedRwSet where
  collectionName : String
  hashedRwSet : HashedRwSet
deriving DecidableEq

/-- The parts of kvrwset.KVRWSet consumed by tx_ops.go. -/
structure KvRwSet where
  reads : List KVRead
  writes : List KVWrite
  metadataWrites : List KVMetadataWrite
deriving DecidableEq

/-- rwsetutil.NsRwSet. -/
structure NsRwSet where
  nameSpace : String
  kvRwSet : KvRwSet
  collHashedRwSets : List CollHashedRwSet
deriving DecidableEq

/-- rwsetutil.TxRwSet. -/
structure TxRwSet where
  nsRwSets : List NsRwSet
deriving DecidableEq

/-- statedb.VersionedValue; Value and Metadata are nilable byte slices. -/
structure VersionedValue where
  value : Option String
  metadata : Option String
  version : Option Version
deriving DecidableEq

/-- The public part of the preceding-updates staging buffer, exposing the
single lookup used by this core (statedb.UpdateBatch.Get). -/
structure PublicUpdates where
  get : String → String → Option VersionedValue

/-- The hashed part of the preceding-updates staging buffer
(privacyenabledstate.HashedUpdateBatch.Get). -/
structure HashedUpdates where
  get : String → String → String → Option VersionedValue

/-- publicAndHashUpdates, the staging buffer of earlier in-block updates. -/
structure publicAndHashUpdates where
  publicUpdates : PublicUpdates
  hashUpdates : HashedUpdates

/-- privacyenabledstate.DB: the four state-database lookups consumed by this
core. Each returns a nilable result or an error. -/
structure DB where
  getState : String → String → Except String (Option VersionedValue)
  getValueHash : String → String → String → Except String (Option VersionedValue)
  getStateMetadata : String → String → Except String (Option String)
  getPrivateDataMetadataByHash : String → String → String → Except String (Option String)

/-- Process-level toggles from orderer/common/localconfig, passed explicitly
so that the embedding is a pure function of its inputs. -/
structure LocalConfig where
  lineageSupported : Bool
  isOCC : Bool

/-- math.MaxUint64. -/
def maxUint64 : Nat := 18446744073709551615

/-- The four keyOpsFlag bits of tx_ops.go. -/
def upsertVal : Nat := 1
def metadataUpdate : Nat := 2
def metadataDelete : Nat := 4
def keyDelete : Nat := 8

/-- compositeKey from tx_ops.go. -/
structure compositeKey where
  ns : String
  coll : String
  key : String
deriving DecidableEq

/-- keyOps from tx_ops.go. The flag is a uint8 bitset (here a Nat kept below
256 by the primitives). -/
structure keyOps where
  flag : Nat
  value : Option String
  metadata : Option String
  deps : List String
  depSnapshot : Nat
deriving DecidableEq

/-- Go zero value of keyOps, as allocated by getOrCreateKeyEntry. -/
def keyOps.empty : keyOps := ⟨0, none, none, [], 0⟩

/-- txOps: a map from compositeKey to keyOps, modelled as an association
list with unique keys. -/
abbrev txOps := List (compositeKey × keyOps)

/-- Map lookup on a txOps association list. -/
def txOps.find : txOps → compositeKey → Option keyOps
  | [], _ => none
  | (ck, keyops) :: rest, k => if ck = k then some keyops else txOps.find rest k

/-- txOps.getOrCreateKeyEntry: insert a zero-valued entry when the key is
missing. In Go the function returns a pointer into the map; the subsequent
in-place mutation through that pointer is rendered by modifyEntry below. -/
def txOps.getOrCreateKeyEntry (txops : txOps) (k : compositeKey) : txOps :=
  match txOps.find txops k with
  | some _ => txops
  | none => txops ++ [(k, keyOps.empty)]

/-- Write through the pointer returned by getOrCreateKeyEntry: apply f to
the entry stored at key k. -/
def txOps.modifyEntry (txops : txOps) (k : compositeKey) (f : keyOps → keyOps) : txOps :=
  txops.map (fun e => if e.1 = k then (e.1, f e.2) else e)

/-- txOps.upsert. The source increments the uint8 flag with +=, which is an
arithmetic addition, not a bitwise OR. -/
def txOps.upsert (txops : txOps) (k : compositeKey) (val : String) : txOps :=
  txOps.modifyEntry (txOps.getOrCreateKeyEntry txops k) k
    (fun keyops => { keyops with flag := (keyops.flag + upsertVal) % 256, value := some val })

/-- txOps.delete. -/
def txOps.delete (txops : txOps) (k : compositeKey) : txOps :=
  txOps.modifyEntry (txOps.getOrCreateKeyEntry txops k) k
    (fun keyops => { keyops with flag := (keyops.flag + keyDelete) % 256 })

/-- txOps.upsertWithDep. -/
def txOps.upsertWithDep (txops : txOps) (k : compositeKey) (val : String)
    (deps : List String) (depSnapshot : Nat) : txOps :=
  txOps.modifyEntry (txOps.getOrCreateKeyEntry txops k) k
    (fun keyops =>
      { keyops with
        flag := (keyops.flag + upsertVal) % 256
        value := some val
        deps := deps
        depSnapshot := depSnapshot })

/-- txOps.deleteWithDep. -/
def txOps.deleteWithDep (txops : txOps) (k : compositeKey)
    (deps : List String) (depSnapshot : Nat) : txOps :=
  txOps.modifyEntry (txOps.getOrCreateKeyEntry txops k) k
    (fun keyops =>
      { keyops with
        flag := (keyops.flag + keyDelete) % 256
        deps := deps
        depSnapshot := depSnapshot })

/-- txOps.metadataUpdate (the flag constant is written qualified to avoid
capturing the name of this function). -/
def txOps.metadataUpdate (txops : txOps) (k : compositeKey) (metadata : String) : txOps :=
  txOps.modifyEntry (txOps.getOrCreateKeyEntry txops k) k
    (fun keyops =>
      { keyops with
        flag := (keyops.flag + TxValidation.metadataUpdate) % 256
        metadata := some metadata })

/-- txOps.metadataDelete. -/
def txOps.metadataDelete (txops : txOps) (k : compositeKey) : txOps :=
  txOps.modifyEntry (txOps.getOrCreateKeyEntry txops k) k
    (fun keyops => { keyops with flag := (keyops.flag + TxValidation.metadataDelete) % 256 })

/-- keyOps.isDelete. -/
def keyOps.isDelete (keyops : keyOps) : Bool :=
  keyops.flag &&& keyDelete == keyDelete

/-- keyOps.isUpsertAndMetadataUpdate. -/
def keyOps.isUpsertAndMetadataUpdate (keyops : keyOps) : Bool :=
  if keyops.flag &&& upsertVal == upsertVal then
    keyops.flag &&& metadataUpdate == metadataUpdate ||
      keyops.flag &&& metadataDelete == metadataDelete
  else false

/-- keyOps.isOnlyUpsert. -/
def keyOps.isOnlyUpsert (keyops : keyOps) : Bool :=
  keyops.flag ||| upsertVal == upsertVal

/-- retrieveLatestState: the staging buffer is consulted first, the state
database on a miss. For a collection key the Go code passes []byte(key),
which under the bytes-as-String convention is the key itself. -/
def retrieveLatestState (ns coll key : String)
    (precedingUpdates : publicAndHashUpdates) (db : DB) :
    Except String (Option VersionedValue) :=
  if coll = "" then
    match precedingUpdates.publicUpdates.get ns key with
    | some vv => Except.ok (some vv)
    | none => db.getState ns key
  else
    match precedingUpdates.hashUpdates.get ns coll key with
    | some vv => Except.ok (some vv)
    | none => db.getValueHash ns coll key

/-- retrieveLatestMetadata: when the staging buffer holds the key, its
metadata field is returned even when that field is nil. -/
def retrieveLatestMetadata (ns coll key : String)
    (precedingUpdates : publicAndHashUpdates) (db : DB) :
    Except String (Option String) :=
  if coll = "" then
    match precedingUpdates.publicUpdates.get ns key with
    | some vv => Except.ok vv.metadata
    | none => db.getStateMetadata ns key
  else
    match precedingUpdates.hashUpdates.get ns coll key with
    | some vv => Except.ok vv.metadata
    | none => db.getPrivateDataMetadataByHash ns coll key

/-- Translation of strings.Split with a single-character separator (the
source only splits on the underscore). The accumulator holds the current
segment reversed. -/
def goSplitAux (c : Char) : List Char → List Char → List String
  | [], acc => [String.mk acc.reverse]
  | d :: rest, acc =>
    if d = c then String.mk acc.reverse :: goSplitAux c rest []
    else goSplitAux c rest (d :: acc)

/-- strings.Split s by the single character c; always returns a non-empty
list, like the Go function with a non-empty separator. -/
def goSplit (c : Char) (s : String) : List String :=
  goSplitAux c s.data []

/-- Translation of strings.HasSuffix. -/
def goHasSuffix (s post : String) : Bool :=
  post.data.isSuffixOf s.data

/-- txOps.applyKVWrite. -/
def txOps.applyKVWrite (txops : txOps) (ns coll : String) (kvWrite : KVWrite) : txOps :=
  if kvWrite.isDelete then txOps.delete txops ⟨ns, coll, kvWrite.key⟩
  else txOps.upsert txops ⟨ns, coll, kvWrite.key⟩ kvWrite.value

/-- txOps.applyKVWriteWithDep. -/
def txOps.applyKVWriteWithDep (txops : txOps) (ns coll : String) (kvWrite : KVWrite)
    (deps : List String) (depSnapshot : Nat) : txOps :=
  if kvWrite.isDelete then
    txOps.deleteWithDep txops ⟨ns, coll, kvWrite.key⟩ deps depSnapshot
  else
    txOps.upsertWithDep txops ⟨ns, coll, kvWrite.key⟩ kvWrite.value deps depSnapshot

/-- txOps.applyMetadata. The nil check of the source is a check for an
absent slice; a present-but-empty slice goes to the serializer. -/
def txOps.applyMetadata (serialize : List KVMetadataEntry → Except String String)
    (txops : txOps) (ns coll : String) (metadataWrite : KVMetadataWrite) :
    Except String txOps :=
  match metadataWrite.entries with
  | none => Except.ok (txOps.metadataDelete txops ⟨ns, coll, metadataWrite.key⟩)
  | some entries =>
    match serialize entries with
    | Except.error err => Except.error err
    | Except.ok metadataBytes =>
      Except.ok (txOps.metadataUpdate txops ⟨ns, coll, metadataWrite.key⟩ metadataBytes)

/-- The read loop of applyTxRwset that derives depSnapshot: it starts at
MaxUint64 and, only when IsOCC holds, is overwritten by each read in
iteration order (BlockNum of its version, or MaxUint64 when the version is
nil); logging statements are dropped. -/
def depSnapshotOf (cfg : LocalConfig) (reads : List KVRead) : Nat :=
  reads.foldl
    (fun snap kvRead =>
      if cfg.isOCC then
        match kvRead.version with
        | none => maxUint64
        | some v => v.blockNum
      else snap)
    maxUint64

/-- Insertion into the provenance dependency map (a Go map assignment:
overwrite when present). -/
def depsInsert : List (String × List String) → String → List String → List (String × List String)
  | [], k, v => [(k, v)]
  | (k0, v0) :: rest, k, v =>
    if k0 = k then (k0, v) :: rest else (k0, v0) :: depsInsert rest k v

/-- Lookup in the provenance dependency map with the Go default of an empty
slice on a miss. -/
def depsLookup : List (String × List String) → String → List String
  | [], _ => []
  | (k0, v0) :: rest, k => if k0 = k then v0 else depsLookup rest k

/-- The marker loop of applyTxRwset: every write whose key ends in _prov is a
marker; the first underscore-separated segment of its key (Split(key)[0])
names the dependent key, and its value splits into dependency names with
empty segments dropped. The source indexes Split(...)[0] on a list that is
never empty, rendered here with headD. -/
def buildDeps (writes : List KVWrite) : List (String × List String) :=
  writes.foldl
    (fun deps kvWrite =>
      if goHasSuffix kvWrite.key "_prov" then
        depsInsert deps ((goSplit '_' kvWrite.key).headD "")
          ((goSplit '_' kvWrite.value).filter (fun dk => dk != ""))
      else deps)
    []

/-- The body of the per-namespace loop of txOps.applyTxRwset. -/
def txOps.applyNsRwSet (cfg : LocalConfig)
    (serialize : List KVMetadataEntry → Except String String)
    (txops : txOps) (nsRWSet : NsRwSet) : txOps :=
  let ns := nsRWSet.nameSpace
  let txops :=
    if cfg.lineageSupported then
      let depSnapshot := depSnapshotOf cfg nsRWSet.kvRwSet.reads
      let deps := buildDeps nsRWSet.kvRwSet.writes
      nsRWSet.kvRwSet.writes.foldl
        (fun acc kvWrite =>
          if goHasSuffix kvWrite.key "_prov" then acc
          else txOps.applyKVWriteWithDep acc ns "" kvWrite
            (depsLookup deps kvWrite.key) depSnapshot)
        txops
    else
      nsRWSet.kvRwSet.writes.foldl
        (fun acc kvWrite => txOps.applyKVWrite acc ns "" kvWrite) txops
  let txops :=
    nsRWSet.kvRwSet.metadataWrites.foldl
      (fun acc kvMetadataWrite =>
        match txOps.applyMetadata serialize acc ns "" kvMetadataWrite with
        | Except.ok acc2 => acc2
        | Except.error _ => acc)
      txops
  nsRWSet.collHashedRwSets.foldl
    (fun acc collHashRWset =>
      let coll := collHashRWset.collectionName
      let acc :=
        collHashRWset.hashedRwSet.hashedWrites.foldl
          (fun acc hashedWrite =>
            txOps.applyKVWrite acc ns coll
              ⟨hashedWrite.keyHash, hashedWrite.valueHash, hashedWrite.isDelete⟩)
          acc
      collHashRWset.hashedRwSet.metadataWrites.foldl
        (fun acc metadataWrite =>
          match txOps.applyMetadata serialize acc ns coll
              ⟨metadataWrite.keyHash, metadataWrite.entries⟩ with
          | Except.ok acc2 => acc2
          | Except.error _ => acc)
        acc)
    txops

/-- txOps.applyTxRwset. In the source this function declares an error result
but every return statement yields nil: the error returned by applyMetadata
is discarded at both of its call sites (the match with an error arm keeping
the accumulator renders that discard), so the embedding returns the mutated
map directly. -/
def txOps.applyTxRwset (cfg : LocalConfig)
    (serialize : List KVMetadataEntry → Except String String)
    (txops : txOps) (rwset : TxRwSet) : txOps :=
  rwset.nsRwSets.foldl (txOps.applyNsRwSet cfg serialize) txops

/-- The body of the merge loop of prepareTxOps for a single entry: ok none
means the entry is removed from the map, ok some gives its merged value, and
an error aborts prepareTxOps. -/
def mergeKeyOp (precedingUpdates : publicAndHashUpdates) (db : DB)
    (ck : compositeKey) (keyop : keyOps) : Except String (Option keyOps) :=
  if keyop.isDelete || keyop.isUpsertAndMetadataUpdate then
    Except.ok (some keyop)
  else if keyop.isOnlyUpsert then
    match retrieveLatestMetadata ck.ns ck.coll ck.key precedingUpdates db with
    | Except.error err => Except.error err
    | Except.ok latestMetadata => Except.ok (some { keyop with metadata := latestMetadata })
  else
    match retrieveLatestState ck.ns ck.coll ck.key precedingUpdates db with
    | Except.error err => Except.error err
    | Except.ok (some latestVal) => Except.ok (some { keyop with value := latestVal.value })
    | Except.ok none => Except.ok none

/-- The merge loop of prepareTxOps over the entries of the map. -/
def prepareTxOpsLoop (precedingUpdates : publicAndHashUpdates) (db : DB) :
    txOps → Except String txOps
  | [] => Except.ok []
  | (ck, keyop) :: rest =>
    match mergeKeyOp precedingUpdates db ck keyop with
    | Except.error err => Except.error err
    | Except.ok none => prepareTxOpsLoop precedingUpdates db rest
    | Except.ok (some keyop2) =>
      match prepareTxOpsLoop precedingUpdates db rest with
      | Except.error err => Except.error err
      | Except.ok rest2 => Except.ok ((ck, keyop2) :: rest2)

/-- prepareTxOps. The source also receives the transaction height, which its
body never uses, and it discards the (always nil) result of applyTxRwset. -/
def prepareTxOps (cfg : LocalConfig)
    (serialize : List KVMetadataEntry → Except String String)
    (rwset : TxRwSet) (precedingUpdates : publicAndHashUpdates) (db : DB) :
    Except String txOps :=
  prepareTxOpsLoop precedingUpdates db (txOps.applyTxRwset cfg serialize [] rwset)

/-! ## Concrete environments and inputs used by witnesses and counterexamples -/

/-- Empty staging buffer. -/
def pu0 : publicAndHashUpdates := ⟨⟨fun _ _ => none⟩, ⟨fun _ _ _ => none⟩⟩

/-- State database with no keys and no metadata. -/
def db0 : DB :=
  ⟨fun _ _ => Except.ok none, fun _ _ _ => Except.ok none,
   fun _ _ => Except.ok none, fun _ _ _ => Except.ok none⟩

/-- A committed versioned value used by concrete scenarios. -/
def vv0 : VersionedValue := ⟨some "v0", none, none⟩

/-- State database whose GetState always finds vv0. -/
def db1 : DB :=
  ⟨fun _ _ => Except.ok (some vv0), fun _ _ _ => Except.ok none,
   fun _ _ => Except.ok none, fun _ _ _ => Except.ok none⟩

/-- State database whose GetStateMetadata always returns the bytes M0. -/
def db2 : DB :=
  ⟨fun _ _ => Except.ok none, fun _ _ _ => Except.ok none,
   fun _ _ => Except.ok (some "M0"), fun _ _ _ => Except.ok none⟩

/-- Staging buffer whose public lookup always finds vv0. -/
def pu1 : publicAndHashUpdates := ⟨⟨fun _ _ => some vv0⟩, ⟨fun _ _ _ => none⟩⟩

/-- A serializer that always fails. -/
def serFail : List KVMetadataEntry → Except String String := fun _ => Except.error "boom"

/-- A serializer that always succeeds with empty bytes. -/
def serOk : List KVMetadataEntry → Except String String := fun _ => Except.ok ""

/-- A serializer that always succeeds with the bytes S. -/
def serS : List KVMetadataEntry → Except String String := fun _ => Except.ok "S"

/-- An RWSet holding one metadata write with a non-empty entries slice. -/
def rw2 : TxRwSet := ⟨[⟨"n", ⟨[], [], [⟨"k", some [⟨"pol", "x"⟩]⟩]⟩, []⟩]⟩

/-- An RWSet whose provenance marker key has an underscore inside its
prefix: the marker a_b_prov should describe a_b but the source files its
dependency list under a. -/
def rw7 : TxRwSet :=
  ⟨[⟨"n", ⟨[], [⟨"a_b_prov", "y_z", false⟩, ⟨"a_b", "v", false⟩, ⟨"a", "w", false⟩], []⟩, []⟩]⟩

/-- An RWSet holding one metadata write whose key ends in the provenance
marker suffix. -/
def rw8 : TxRwSet := ⟨[⟨"n", ⟨[], [], [⟨"x_prov", none⟩]⟩, []⟩]⟩

/-- An RWSet holding one plain value write. -/
def rw9 : TxRwSet := ⟨[⟨"n", ⟨[], [⟨"k", "v", false⟩], []⟩, []⟩]⟩

/-- An RWSet holding one provenance marker and one real write. -/
def rw8b : TxRwSet := ⟨[⟨"n", ⟨[], [⟨"k_prov", "y", false⟩, ⟨"k", "v", false⟩], []⟩, []⟩]⟩

/-! ## Lookup lemmas for the association-list map -/

lemma txOps.find_append (t1 t2 : txOps) (k : compositeKey) :
    txOps.find (t1 ++ t2) k =
      match txOps.find t1 k with
      | some v => some v
      | none => txOps.find t2 k := by
  induction t1 with
  | nil => simp [txOps.find]
  | cons e rest ih =>
    obtain ⟨ck, keyops⟩ := e
    by_cases h : ck = k
    · simp [txOps.find, h]
    · simp [txOps.find, h, ih]

lemma txOps.find_cons (ck : compositeKey) (keyops : keyOps) (rest : txOps) (k : compositeKey) :
    txOps.find ((ck, keyops) :: rest) k
      = if ck = k then some keyops else txOps.find rest k := rfl

lemma txOps.modifyEntry_cons (ck : compositeKey) (keyops : keyOps) (rest : txOps)
    (k : compositeKey) (f : keyOps → keyOps) :
    txOps.modifyEntry ((ck, keyops) :: rest) k f
      = (if ck = k then (ck, f keyops) else (ck, keyops)) :: txOps.modifyEntry rest k f := by
  by_cases h : ck = k <;> simp [txOps.modifyEntry, h]

lemma txOps.find_modifyEntry_self (t : txOps) (k : compositeKey) (f : keyOps → keyOps) :
    txOps.find (txOps.modifyEntry t k f) k = Option.map f (txOps.find t k) := by
  induction t with
  | nil => rfl
  | cons e rest ih =>
    obtain ⟨ck, keyops⟩ := e
    rw [txOps.modifyEntry_cons]
    by_cases h : ck = k
    · subst h
      simp [txOps.find_cons]
    · simp [txOps.find_cons, h, ih]

lemma txOps.find_modifyEntry_ne (t : txOps) (k q : compositeKey) (f : keyOps → keyOps)
    (h : q ≠ k) :
    txOps.find (txOps.modifyEntry t k f) q = txOps.find t q := by
  induction t with
  | nil => rfl
  | cons e rest ih =>
    obtain ⟨ck, keyops⟩ := e
    rw [txOps.modifyEntry_cons]
    by_cases hck : ck = k
    · subst hck
      simp [txOps.find_cons, Ne.symm h, ih]
    · by_cases hcq : ck = q
      · subst hcq
        simp [txOps.find_cons, hck]
      · simp [txOps.find_cons, hck, hcq, ih]

lemma txOps.find_getOrCreateKeyEntry_self (t : txOps) (k : compositeKey) :
    txOps.find (txOps.getOrCreateKeyEntry t k) k
      = some ((txOps.find t k).getD keyOps.empty) := by
  unfold txOps.getOrCreateKeyEntry
  cases h : txOps.find t k with
  | some v => simp [h]
  | none => simp [txOps.find_append, h, txOps.find]

lemma txOps.find_getOrCreateKeyEntry_ne (t : txOps) (k q : compositeKey) (h : q ≠ k) :
    txOps.find (txOps.getOrCreateKeyEntry t k) q = txOps.find t q := by
  unfold txOps.getOrCreateKeyEntry
  cases hf : txOps.find t k with
  | some v => rfl
  | none =>
    rw [txOps.find_append]
    have : txOps.find [(k, keyOps.empty)] q = none := by
      simp [txOps.find, Ne.symm h]
    rw [this]
    cases txOps.find t q <;> rfl

lemma txOps.find_eq_none_of_not_mem {t : txOps} {k : compositeKey}
    (h : k ∉ t.map Prod.fst) : txOps.find t k = none := by
  induction t with
  | nil => rfl
  | cons e rest ih =>
    obtain ⟨ck, keyops⟩ := e
    simp only [List.map_cons, List.mem_cons, not_or] at h
    rw [txOps.find]
    have hck : ¬ (ck = k) := fun hh => h.1 hh.symm
    simp only [hck, if_false]
    exact ih h.2

/-! ## Classification lemmas over the flag bitset -/

lemma flag_of_lor_one {n : Nat} (h : n ||| 1 = 1) : n = 0 ∨ n = 1 := by
  have hlt : n < 2 ^ 1 := by
    apply Nat.lt_pow_two_of_testBit
    intro i hi
    have h1 : Nat.testBit 1 i = false := by
      cases hb : Nat.testBit 1 i
      · rfl
      · exact absurd (Nat.testBit_one_eq_true_iff_self_eq_zero.mp hb) (by omega)
    have h2 := congrArg (fun m => Nat.testBit m i) h
    simp only [Nat.testBit_or, h1, Bool.or_false] at h2
    exact h2
  omega

lemma isOnlyUpsert_not_terminal {keyops : keyOps} (h : keyops.isOnlyUpsert = true) :
    (keyops.isDelete || keyops.isUpsertAndMetadataUpdate) = false := by
  have h1 : keyops.flag ||| 1 = 1 := by
    have h2 := h
    simp only [keyOps.isOnlyUpsert, upsertVal, beq_iff_eq] at h2
    exact h2
  rcases flag_of_lor_one h1 with h0 | h0 <;>
    · simp only [keyOps.isDelete, keyOps.isUpsertAndMetadataUpdate, h0]
      decide

lemma metadataOnly_classification {keyops : keyOps}
    (h : keyops.flag = metadataUpdate ∨ keyops.flag = metadataDelete) :
    (keyops.isDelete || keyops.isUpsertAndMetadataUpdate) = false ∧
      keyops.isOnlyUpsert = false := by
  rcases h with h0 | h0 <;>
    · simp only [keyOps.isDelete, keyOps.isUpsertAndMetadataUpdate, keyOps.isOnlyUpsert, h0]
      exact ⟨by decide, by decide⟩

/-! ## Behaviour of the merge-loop body -/

lemma mergeKeyOp_terminal {pu : publicAndHashUpdates} {db : DB} {ck : compositeKey}
    {keyop : keyOps} (h : (keyop.isDelete || keyop.isUpsertAndMetadataUpdate) = true) :
    mergeKeyOp pu db ck keyop = Except.ok (some keyop) := by
  simp [mergeKeyOp, h]

lemma mergeKeyOp_onlyUpsert {pu : publicAndHashUpdates} {db : DB} {ck : compositeKey}
    {keyop : keyOps} {md : Option String}
    (h : keyop.isOnlyUpsert = true)
    (hm : retrieveLatestMetadata ck.ns ck.coll ck.key pu db = Except.ok md) :
    mergeKeyOp pu db ck keyop = Except.ok (some { keyop with metadata := md }) := by
  simp [mergeKeyOp, isOnlyUpsert_not_terminal h, h, hm]

lemma mergeKeyOp_metadataOnly_none {pu : publicAndHashUpdates} {db : DB} {ck : compositeKey}
    {keyop : keyOps}
    (h1 : (keyop.isDelete || keyop.isUpsertAndMetadataUpdate) = false)
    (h2 : keyop.isOnlyUpsert = false)
    (hs : retrieveLatestState ck.ns ck.coll ck.key pu db = Except.ok none) :
    mergeKeyOp pu db ck keyop = Except.ok none := by
  simp [mergeKeyOp, h1, h2, hs]

lemma mergeKeyOp_metadataOnly_some {pu : publicAndHashUpdates} {db : DB} {ck : compositeKey}
    {keyop : keyOps} {vv : VersionedValue}
    (h1 : (keyop.isDelete || keyop.isUpsertAndMetadataUpdate) = false)
    (h2 : keyop.isOnlyUpsert = false)
    (hs : retrieveLatestState ck.ns ck.coll ck.key pu db = Except.ok (some vv)) :
    mergeKeyOp pu db ck keyop = Except.ok (some { keyop with value := vv.value }) := by
  simp [mergeKeyOp, h1, h2, hs]

/-! ## Lookup behaviour of the merge loop -/

lemma prepareTxOpsLoop_find_none {pu : publicAndHashUpdates} {db : DB} :
    ∀ {t out : txOps} {k : compositeKey},
      prepareTxOpsLoop pu db t = Except.ok out →
      txOps.find t k = none → txOps.find out k = none := by
  intro t
  induction t with
  | nil =>
    intro out k h hf
    simp only [prepareTxOpsLoop] at h
    injection h with h
    subst h
    rfl
  | cons e rest ih =>
    obtain ⟨ck, keyop⟩ := e
    intro out k h hf
    have hck : ¬ (ck = k) := by
      intro hh
      rw [txOps.find] at hf
      simp [hh] at hf
    have hrest : txOps.find rest k = none := by
      rw [txOps.find] at hf
      simpa [hck] using hf
    simp only [prepareTxOpsLoop] at h
    cases hM : mergeKeyOp pu db ck keyop with
    | error err => rw [hM] at h; cases h
    | ok o =>
      cases o with
      | none =>
        rw [hM] at h
        exact ih h hrest
      | some keyop2 =>
        rw [hM] at h
        cases hL : prepareTxOpsLoop pu db rest with
        | error err => rw [hL] at h; cases h
        | ok rest2 =>
          rw [hL] at h
          injection h with h
          subst h
          rw [txOps.find]
          simp only [hck, if_false]
          exact ih hL hrest

lemma prepareTxOpsLoop_find_some {pu : publicAndHashUpdates} {db : DB} :
    ∀ {t out : txOps} {k : compositeKey} {keyop keyop2 : keyOps},
      prepareTxOpsLoop pu db t = Except.ok out →
      txOps.find t k = some keyop →
      mergeKeyOp pu db k keyop = Except.ok (some keyop2) →
      txOps.find out k = some keyop2 := by
  intro t
  induction t with
  | nil =>
    intro out k keyop keyop2 h hf hmg
    cases hf
  | cons e rest ih =>
    obtain ⟨ck, keyop0⟩ := e
    intro out k keyop keyop2 h hf hmg
    simp only [prepareTxOpsLoop] at h
    by_cases hck : ck = k
    · subst hck
      rw [txOps.find] at hf
      simp only [if_pos rfl] at hf
      injection hf with hf
      subst hf
      rw [hmg] at h
      cases hL : prepareTxOpsLoop pu db rest with
      | error err => rw [hL] at h; cases h
      | ok rest2 =>
        rw [hL] at h
        injection h with h
        subst h
        rw [txOps.find]
        simp
    · rw [txOps.find] at hf
      simp only [hck, if_false] at hf
      cases hM : mergeKeyOp pu db ck keyop0 with
      | error err => rw [hM] at h; cases h
      | ok o =>
        cases o with
        | none =>
          rw [hM] at h
          exact ih h hf hmg
        | some keyop3 =>
          rw [hM] at h
          cases hL : prepareTxOpsLoop pu db rest with
          | error err => rw [hL] at h; cases h
          | ok rest2 =>
            rw [hL] at h
            injection h with h
            subst h
            rw [txOps.find]
            simp only [hck, if_false]
            exact ih hL hf hmg

lemma prepareTxOpsLoop_find_drop {pu : publicAndHashUpdates} {db : DB} :
    ∀ {t out : txOps} {k : compositeKey} {keyop : keyOps},
      prepareTxOpsLoop pu db t = Except.ok out →
      (t.map Prod.fst).Nodup →
      txOps.find t k = some keyop →
      mergeKeyOp pu db k keyop = Except.ok none →
      txOps.find out k = none := by
  intro t
  induction t with
  | nil =>
    intro out k keyop h hnd hf hmg
    cases hf
  | cons e rest ih =>
    obtain ⟨ck, keyop0⟩ := e
    intro out k keyop h hnd hf hmg
    simp only [List.map_cons, List.nodup_cons] at hnd
    simp only [prepareTxOpsLoop] at h
    by_cases hck : ck = k
    · subst hck
      rw [txOps.find] at hf
      simp only [if_pos rfl] at hf
      injection hf with hf
      subst hf
      rw [hmg] at h
      exact prepareTxOpsLoop_find_none h (txOps.find_eq_none_of_not_mem hnd.1)
    · rw [txOps.find] at hf
      simp only [hck, if_false] at hf
      cases hM : mergeKeyOp pu db ck keyop0 with
      | error err => rw [hM] at h; cases h
      | ok o =>
        cases o with
        | none =>
          rw [hM] at h
          exact ih h hnd.2 hf hmg
        | some keyop3 =>
          rw [hM] at h
          cases hL : prepareTxOpsLoop pu db rest with
          | error err => rw [hL] at h; cases h
          | ok rest2 =>
            rw [hL] at h
            injection h with h
            subst h
            rw [txOps.find]
            simp only [hck, if_false]
            exact ih hL hnd.2 hf hmg

lemma prepareTxOpsLoop_mem {pu : publicAndHashUpdates} {db : DB} :
    ∀ {t out : txOps},
      prepareTxOpsLoop pu db t = Except.ok out →
      ∀ e ∈ out, ∃ keyop, (e.1, keyop) ∈ t := by
  intro t
  induction t with
  | nil =>
    intro out h e he
    simp only [prepareTxOpsLoop] at h
    injection h with h
    subst h
    cases he
  | cons hd rest ih =>
    obtain ⟨ck, keyop0⟩ := hd
    intro out h e he
    simp only [prepareTxOpsLoop] at h
    cases hM : mergeKeyOp pu db ck keyop0 with
    | error err => rw [hM] at h; cases h
    | ok o =>
      cases o with
      | none =>
        rw [hM] at h
        obtain ⟨keyop, hk⟩ := ih h e he
        exact ⟨keyop, List.mem_cons_of_mem _ hk⟩
      | some keyop2 =>
        rw [hM] at h
        cases hL : prepareTxOpsLoop pu db rest with
        | error err => rw [hL] at h; cases h
        | ok rest2 =>
          rw [hL] at h
          injection h with h
          subst h
          rcases List.mem_cons.mp he with he | he
          · subst he
            exact ⟨keyop0, List.mem_cons_self _ _⟩
          · obtain ⟨keyop, hk⟩ := ih hL e he
            exact ⟨keyop, List.mem_cons_of_mem _ hk⟩

/-! ## Invariant preservation through the projection -/

lemma txOps.prim_pres (P : compositeKey × keyOps → Prop) (t : txOps) (k : compositeKey)
    (f : keyOps → keyOps)
    (hmod : ∀ e : compositeKey × keyOps, P e → P (e.1, f e.2))
    (hnew : P (k, keyOps.empty))
    (ht : ∀ e ∈ t, P e) :
    ∀ e ∈ txOps.modifyEntry (txOps.getOrCreateKeyEntry t k) k f, P e := by
  have hg : ∀ e ∈ txOps.getOrCreateKeyEntry t k, P e := by
    intro e2 he2
    unfold txOps.getOrCreateKeyEntry at he2
    cases hf : txOps.find t k with
    | some v =>
      rw [hf] at he2
      exact ht e2 he2
    | none =>
      rw [hf] at he2
      rcases List.mem_append.mp he2 with h2 | h2
      · exact ht e2 h2
      · rcases List.mem_singleton.mp h2 with h3
        subst h3
        exact hnew
  intro e he
  unfold txOps.modifyEntry at he
  rcases List.mem_map.mp he with ⟨p, hp, hpe⟩
  by_cases hpk : p.1 = k
  · rw [if_pos hpk] at hpe
    subst hpe
    exact hmod p (hg p hp)
  · rw [if_neg hpk] at hpe
    subst hpe
    exact hg p hp

lemma txOps.foldl_pres {α : Type} (P : compositeKey × keyOps → Prop)
    (g : txOps → α → txOps) :
    ∀ (l : List α),
      (∀ t a, a ∈ l → (∀ e ∈ t, P e) → ∀ e ∈ g t a, P e) →
      ∀ t, (∀ e ∈ t, P e) → ∀ e ∈ List.foldl g t l, P e := by
  intro l
  induction l with
  | nil =>
    intro _ t ht e he
    rw [List.foldl_nil] at he
    exact ht e he
  | cons a rest ih =>
    intro hg t ht e he
    rw [List.foldl_cons] at he
    exact ih (fun t2 a2 ha2 => hg t2 a2 (List.mem_cons_of_mem _ ha2))
      (g t a) (hg t a (List.mem_cons_self _ _) ht) e he

/-- Entries produced without the provenance extension carry the zero values
of the dependency fields. -/
def zeroDeps (e : compositeKey × keyOps) : Prop :=
  e.2.deps = [] ∧ e.2.depSnapshot = 0

lemma txOps.applyKVWrite_zeroDeps (t : txOps) (ns coll : String) (kvWrite : KVWrite)
    (ht : ∀ e ∈ t, zeroDeps e) :
    ∀ e ∈ txOps.applyKVWrite t ns coll kvWrite, zeroDeps e := by
  unfold txOps.applyKVWrite txOps.delete txOps.upsert
  by_cases hd : kvWrite.isDelete
  · rw [if_pos hd]
    refine txOps.prim_pres zeroDeps t _ _ ?_ ⟨rfl, rfl⟩ ht
    intro e he
    exact he
  · rw [if_neg hd]
    refine txOps.prim_pres zeroDeps t _ _ ?_ ⟨rfl, rfl⟩ ht
    intro e he
    exact he

lemma txOps.applyMetadataDiscard_zeroDeps
    (serialize : List KVMetadataEntry → Except String String)
    (t : txOps) (ns coll : String) (mw : KVMetadataWrite)
    (ht : ∀ e ∈ t, zeroDeps e) :
    ∀ e ∈ (match txOps.applyMetadata serialize t ns coll mw with
           | Except.ok t2 => t2
           | Except.error _ => t), zeroDeps e := by
  cases hme : mw.entries with
  | none =>
    simp only [txOps.applyMetadata, hme, txOps.metadataDelete]
    refine txOps.prim_pres zeroDeps t _ _ ?_ ⟨rfl, rfl⟩ ht
    intro e he
    exact he
  | some entries =>
    cases hse : serialize entries with
    | error err =>
      simp only [txOps.applyMetadata, hme, hse]
      exact ht
    | ok mdBytes =>
      simp only [txOps.applyMetadata, hme, hse, txOps.metadataUpdate]
      refine txOps.prim_pres zeroDeps t _ _ ?_ ⟨rfl, rfl⟩ ht
      intro e he
      exact he

lemma txOps.applyNsRwSet_zeroDeps (cfg : LocalConfig)
    (serialize : List KVMetadataEntry → Except String String)
    (t : txOps) (nsRWSet : NsRwSet)
    (hlin : cfg.lineageSupported = false)
    (ht : ∀ e ∈ t, zeroDeps e) :
    ∀ e ∈ txOps.applyNsRwSet cfg serialize t nsRWSet, zeroDeps e := by
  unfold txOps.applyNsRwSet
  rw [hlin]
  simp only [Bool.false_eq_true, if_false]
  apply txOps.foldl_pres zeroDeps _ nsRWSet.collHashedRwSets
  · intro t2 coll _ ht2
    apply txOps.foldl_pres zeroDeps _ coll.hashedRwSet.metadataWrites
    · intro t3 mw _ ht3
      exact txOps.applyMetadataDiscard_zeroDeps serialize t3 _ _ _ ht3
    · apply txOps.foldl_pres zeroDeps _ coll.hashedRwSet.hashedWrites
      · intro t3 hw _ ht3
        exact txOps.applyKVWrite_zeroDeps t3 _ _ _ ht3
      · exact ht2
  · apply txOps.foldl_pres zeroDeps _ nsRWSet.kvRwSet.metadataWrites
    · intro t2 mw _ ht2
      exact txOps.applyMetadataDiscard_zeroDeps serialize t2 _ _ _ ht2
    · apply txOps.foldl_pres zeroDeps _ nsRWSet.kvRwSet.writes
      · intro t2 w _ ht2
        exact txOps.applyKVWrite_zeroDeps t2 _ _ _ ht2
      · exact ht

lemma txOps.applyTxRwset_zeroDeps (cfg : LocalConfig)
    (serialize : List KVMetadataEntry → Except String String)
    (rwset : TxRwSet)
    (hlin : cfg.lineageSupported = false) :
    ∀ e ∈ txOps.applyTxRwset cfg serialize [] rwset, zeroDeps e := by
  unfold txOps.applyTxRwset
  apply txOps.foldl_pres zeroDeps _ rwset.nsRwSets
  · intro t nsrw _ ht
    exact txOps.applyNsRwSet_zeroDeps cfg serialize t nsrw hlin ht
  · intro e he
    cases he

/-- A key predicate is preserved by any primitive whose target key
satisfies it. -/
lemma txOps.prim_keys (Q : compositeKey → Prop) (t : txOps) (k : compositeKey)
    (f : keyOps → keyOps) (hnew : Q k) (ht : ∀ e ∈ t, Q e.1) :
    ∀ e ∈ txOps.modifyEntry (txOps.getOrCreateKeyEntry t k) k f, Q e.1 :=
  txOps.prim_pres (fun e => Q e.1) t k f (fun _ he => he) hnew ht

lemma txOps.applyKVWriteWithDep_keys (Q : compositeKey → Prop) (t : txOps)
    (ns coll : String) (kvWrite : KVWrite) (deps : List String) (depSnapshot : Nat)
    (hnew : Q ⟨ns, coll, kvWrite.key⟩) (ht : ∀ e ∈ t, Q e.1) :
    ∀ e ∈ txOps.applyKVWriteWithDep t ns coll kvWrite deps depSnapshot, Q e.1 := by
  unfold txOps.applyKVWriteWithDep txOps.deleteWithDep txOps.upsertWithDep
  by_cases hd : kvWrite.isDelete
  · rw [if_pos hd]
    exact txOps.prim_keys Q t _ _ hnew ht
  · rw [if_neg hd]
    exact txOps.prim_keys Q t _ _ hnew ht

/-- In provenance mode, the value-write stream only ever creates entries
whose key does not end in the marker suffix. -/
lemma txOps.applyNsRwSet_keys_prov (cfg : LocalConfig)
    (serialize : List KVMetadataEntry → Except String String)
    (t : txOps) (nsRWSet : NsRwSet)
    (hlin : cfg.lineageSupported = true)
    (hmw : nsRWSet.kvRwSet.metadataWrites = [])
    (hcoll : nsRWSet.collHashedRwSets = [])
    (ht : ∀ e ∈ t, goHasSuffix e.1.key "_prov" = false) :
    ∀ e ∈ txOps.applyNsRwSet cfg serialize t nsRWSet,
      goHasSuffix e.1.key "_prov" = false := by
  unfold txOps.applyNsRwSet
  rw [hlin, hmw, hcoll]
  simp only [if_true, List.foldl_nil]
  apply txOps.foldl_pres (fun e => goHasSuffix e.1.key "_prov" = false) _
    nsRWSet.kvRwSet.writes
  · intro t2 w _ ht2
    by_cases hs : goHasSuffix w.key "_prov"
    · simpa [hs] using ht2
    · intro e he
      rw [if_neg hs] at he
      exact txOps.applyKVWriteWithDep_keys
        (fun ck => goHasSuffix ck.key "_prov" = false) t2 _ _ w _ _
        (by simpa using hs) ht2 e he
  · exact ht

lemma depSnapshotOf_notOCC (cfg : LocalConfig) (h : cfg.isOCC = false) :
    ∀ (reads : List KVRead) (init : Nat),
      reads.foldl
        (fun snap kvRead =>
          if cfg.isOCC then
            match kvRead.version with
            | none => maxUint64
            | some v => v.blockNum
          else snap) init = init := by
  intro reads
  induction reads with
  | nil => intro init; rfl
  | cons r rest ih =>
    intro init
    rw [List.foldl_cons]
    simp only [h, Bool.false_eq_true, if_false] at ih ⊢
    exact ih init

lemma txOps.applyTxRwset_keys_prov (cfg : LocalConfig)
    (serialize : List KVMetadataEntry → Except String String)
    (rwset : TxRwSet)
    (hlin : cfg.lineageSupported = true)
    (hshape : ∀ nsrw ∈ rwset.nsRwSets,
      nsrw.kvRwSet.metadataWrites = [] ∧ nsrw.collHashedRwSets = []) :
    ∀ e ∈ txOps.applyTxRwset cfg serialize [] rwset,
      goHasSuffix e.1.key "_prov" = false := by
  unfold txOps.applyTxRwset
  apply txOps.foldl_pres (fun e => goHasSuffix e.1.key "_prov" = false) _ rwset.nsRwSets
  · intro t nsrw hmem ht
    exact txOps.applyNsRwSet_keys_prov cfg serialize t nsrw hlin
      (hshape nsrw hmem).1 (hshape nsrw hmem).2 ht
  · intro e he
    cases he

/-! ## Claim theorems -/

/-- Claim C1 (evaluation of the code at the failing input): applying upsert
twice to the same composite key leaves the flag equal to the
METADATA_UPDATE bit rather than UPSERT_VAL, because the source adds the
already-set bit arithmetically with +=; the value slot does hold the last
written value, as the claim states. -/
theorem upsert_twice_flag_corrupted :
    txOps.find (txOps.upsert (txOps.upsert ([] : txOps) ⟨"n", "", "k"⟩ "v1")
        ⟨"n", "", "k"⟩ "v2") ⟨"n", "", "k"⟩
      = some ⟨metadataUpdate, some "v2", none, [], 0⟩
    ∧ metadataUpdate ≠ upsertVal := by
  constructor
  · decide
  · decide

/-- Claim C2 (evaluation of the code at the failing input): with a
serializer that always fails and an RWSet holding one metadata write with
non-empty entries, prepareTxOps still succeeds and returns the empty map:
the serialization error is discarded at the applyMetadata call sites and
the applyTxRwset result is discarded by prepareTxOps, so no error reaches
the caller. -/
theorem serialize_error_not_propagated :
    prepareTxOps ⟨false, false⟩ serFail rw2 pu0 db0 = Except.ok []
    ∧ serFail [⟨"pol", "x"⟩] = Except.error "boom" := ⟨rfl, rfl⟩

/-- Claim C3: an entry holding only a metadata dimension (flag equal to
METADATA_UPDATE or to METADATA_DELETE) is removed by the merge stage when
the resolver finds no latest state for its key, and otherwise receives the
latest value in its value slot with every other field unchanged. -/
theorem prepareTxOps_metadataOnly_merge
    (pu : publicAndHashUpdates) (db : DB) (t out : txOps) (k : compositeKey)
    (keyop : keyOps)
    (hfind : txOps.find t k = some keyop)
    (hflag : keyop.flag = metadataUpdate ∨ keyop.flag = metadataDelete)
    (hloop : prepareTxOpsLoop pu db t = Except.ok out) :
    ((t.map Prod.fst).Nodup →
      retrieveLatestState k.ns k.coll k.key pu db = Except.ok none →
      txOps.find out k = none)
    ∧ (∀ vv : VersionedValue,
        retrieveLatestState k.ns k.coll k.key pu db = Except.ok (some vv) →
        txOps.find out k = some { keyop with value := vv.value }) := by
  obtain ⟨hterm, honly⟩ := metadataOnly_classification hflag
  constructor
  · intro hnd hst
    exact prepareTxOpsLoop_find_drop hloop hnd hfind
      (mergeKeyOp_metadataOnly_none hterm honly hst)
  · intro vv hst
    exact prepareTxOpsLoop_find_some hloop hfind
      (mergeKeyOp_metadataOnly_some hterm honly hst)

/-- Witness for C3: a METADATA_UPDATE-only entry whose key exists in the
state database with value v0 receives that value, flag unchanged. -/
theorem prepareTxOps_metadataOnly_merge_witness :
    txOps.find [(⟨"n", "", "k"⟩, (⟨2, some "v0", some "M2", [], 0⟩ : keyOps))]
        ⟨"n", "", "k"⟩
      = some ⟨2, some "v0", some "M2", [], 0⟩ :=
  (prepareTxOps_metadataOnly_merge pu0 db1
      [(⟨"n", "", "k"⟩, ⟨2, none, some "M2", [], 0⟩)]
      [(⟨"n", "", "k"⟩, ⟨2, some "v0", some "M2", [], 0⟩)]
      ⟨"n", "", "k"⟩ ⟨2, none, some "M2", [], 0⟩
      (by decide) (Or.inl rfl) rfl).2 vv0 rfl

/-- Claim C4: an entry satisfying isOnlyUpsert receives the latest metadata
returned by the resolver in its metadata slot, with flag and value
unchanged; when no prior metadata exists the slot is nil (the md = none
instance). -/
theorem prepareTxOps_onlyUpsert_merges_metadata
    (pu : publicAndHashUpdates) (db : DB) (t out : txOps) (k : compositeKey)
    (keyop : keyOps) (md : Option String)
    (hfind : txOps.find t k = some keyop)
    (honly : keyop.isOnlyUpsert = true)
    (hmd : retrieveLatestMetadata k.ns k.coll k.key pu db = Except.ok md)
    (hloop : prepareTxOpsLoop pu db t = Except.ok out) :
    txOps.find out k = some { keyop with metadata := md } :=
  prepareTxOpsLoop_find_some hloop hfind (mergeKeyOp_onlyUpsert honly hmd)

/-- Witness for C4: an UPSERT_VAL-only entry picks up the metadata M0 from
the state database. -/
theorem prepareTxOps_onlyUpsert_merges_metadata_witness :
    txOps.find [(⟨"n", "", "k"⟩, (⟨1, some "v1", some "M0", [], 0⟩ : keyOps))]
        ⟨"n", "", "k"⟩
      = some ⟨1, some "v1", some "M0", [], 0⟩ :=
  prepareTxOps_onlyUpsert_merges_metadata pu0 db2
    [(⟨"n", "", "k"⟩, ⟨1, some "v1", none, [], 0⟩)]
    [(⟨"n", "", "k"⟩, ⟨1, some "v1", some "M0", [], 0⟩)]
    ⟨"n", "", "k"⟩ ⟨1, some "v1", none, [], 0⟩ (some "M0")
    (by decide) (by decide) rfl rfl

/-- Claim C5: an entry with the KEY_DELETE bit set, or one satisfying
isUpsertAndMetadataUpdate, passes through the merge stage bit-identical;
the statement quantifies over every staging buffer and state database, so
the surviving entry does not depend on any resolver content for its key. -/
theorem prepareTxOps_delete_frame
    (pu : publicAndHashUpdates) (db : DB) (t out : txOps) (k : compositeKey)
    (keyop : keyOps)
    (hfind : txOps.find t k = some keyop)
    (hclass : keyop.isDelete = true ∨ keyop.isUpsertAndMetadataUpdate = true)
    (hloop : prepareTxOpsLoop pu db t = Except.ok out) :
    txOps.find out k = some keyop := by
  refine prepareTxOpsLoop_find_some hloop hfind (mergeKeyOp_terminal ?_)
  rcases hclass with h | h <;> simp [h]

/-- Witness for C5: a KEY_DELETE entry survives the merge loop unchanged
over the empty environment. -/
theorem prepareTxOps_delete_frame_witness :
    txOps.find [(⟨"n", "", "k"⟩, (⟨8, none, none, [], 0⟩ : keyOps))] ⟨"n", "", "k"⟩
      = some ⟨8, none, none, [], 0⟩ :=
  prepareTxOps_delete_frame pu0 db0
    [(⟨"n", "", "k"⟩, ⟨8, none, none, [], 0⟩)]
    [(⟨"n", "", "k"⟩, ⟨8, none, none, [], 0⟩)]
    ⟨"n", "", "k"⟩ ⟨8, none, none, [], 0⟩
    (by decide) (Or.inl (by decide)) rfl

/-- Claim C6 counterexample: a metadata write whose entries slice is present
but empty is serialized and recorded through metadataUpdate (flag
METADATA_UPDATE, serialized bytes stored), not through metadataDelete as
the claim states for empty entries. -/
theorem applyMetadata_empty_entries_counterexample :
    txOps.applyMetadata serS ([] : txOps) "n" "" ⟨"k", some []⟩
      = Except.ok [(⟨"n", "", "k"⟩, ⟨metadataUpdate, none, some "S", [], 0⟩)]
    ∧ metadataUpdate ≠ metadataDelete := ⟨rfl, by decide⟩

/-- Claim C6 as amended: only an absent (nil) entries slice triggers
metadataDelete; any present slice, the empty one included, is serialized
and recorded through metadataUpdate, and a serializer error is returned by
applyMetadata. -/
theorem applyMetadata_classification
    (serialize : List KVMetadataEntry → Except String String)
    (t : txOps) (ns coll : String) (mw : KVMetadataWrite)
    (hfresh : txOps.find t ⟨ns, coll, mw.key⟩ = none) :
    (mw.entries = none →
      txOps.applyMetadata serialize t ns coll mw
        = Except.ok (txOps.metadataDelete t ⟨ns, coll, mw.key⟩)
      ∧ txOps.find (txOps.metadataDelete t ⟨ns, coll, mw.key⟩) ⟨ns, coll, mw.key⟩
          = some ⟨metadataDelete, none, none, [], 0⟩)
    ∧ (∀ entries mdBytes, mw.entries = some entries →
        serialize entries = Except.ok mdBytes →
        txOps.applyMetadata serialize t ns coll mw
          = Except.ok (txOps.metadataUpdate t ⟨ns, coll, mw.key⟩ mdBytes)
        ∧ txOps.find (txOps.metadataUpdate t ⟨ns, coll, mw.key⟩ mdBytes) ⟨ns, coll, mw.key⟩
            = some ⟨metadataUpdate, none, some mdBytes, [], 0⟩)
    ∧ (∀ entries err, mw.entries = some entries →
        serialize entries = Except.error err →
        txOps.applyMetadata serialize t ns coll mw = Except.error err) := by
  refine ⟨?_, ?_, ?_⟩
  · intro he
    refine ⟨by simp [txOps.applyMetadata, he], ?_⟩
    simp [txOps.metadataDelete, txOps.find_modifyEntry_self,
      txOps.find_getOrCreateKeyEntry_self, hfresh, keyOps.empty, metadataDelete]
  · intro entries mdBytes he hs
    refine ⟨by simp [txOps.applyMetadata, he, hs], ?_⟩
    simp [txOps.metadataUpdate, txOps.find_modifyEntry_self,
      txOps.find_getOrCreateKeyEntry_self, hfresh, keyOps.empty, metadataUpdate]
  · intro entries err he hs
    simp [txOps.applyMetadata, he, hs]

/-- Witness for the amended C6 at a present-but-empty entries slice. -/
theorem applyMetadata_classification_witness :
    txOps.applyMetadata serS ([] : txOps) "n" "" ⟨"k", some []⟩
        = Except.ok (txOps.metadataUpdate [] ⟨"n", "", "k"⟩ "S")
    ∧ txOps.find (txOps.metadataUpdate [] ⟨"n", "", "k"⟩ "S") ⟨"n", "", "k"⟩
        = some ⟨metadataUpdate, none, some "S", [], 0⟩ :=
  (applyMetadata_classification serS [] "n" "" ⟨"k", some []⟩ (by decide)).2.1 [] "S" rfl rfl

/-- Claim C7 counterexample: for the marker a_b_prov with value y_z the
source records the dependency list under a, the first underscore-separated
segment, so the real write a_b receives no dependencies while the real
write a receives them. -/
theorem provenance_marker_first_segment_counterexample :
    txOps.find (txOps.applyTxRwset ⟨true, false⟩ serOk [] rw7) ⟨"n", "", "a_b"⟩
      = some ⟨upsertVal, some "v", none, [], maxUint64⟩
    ∧ txOps.find (txOps.applyTxRwset ⟨true, false⟩ serOk [] rw7) ⟨"n", "", "a"⟩
      = some ⟨upsertVal, some "w", none, ["y", "z"], maxUint64⟩
    ∧ ([] : List String) ≠ ["y", "z"] := by
  refine ⟨by decide, by decide, by decide⟩

/-- Claim C7 as amended: the dependency list parsed from a marker is
recorded under the first underscore-separated segment of the marker key
(equal to the full prefix only when that prefix has no underscore), and a
real write whose key equals that segment receives the list together with
the derived snapshot through upsertWithDep. -/
theorem provenance_deps_first_segment
    (cfg : LocalConfig) (serialize : List KVMetadataEntry → Except String String)
    (ns : String) (reads : List KVRead) (m w : KVWrite)
    (hlin : cfg.lineageSupported = true)
    (hm : goHasSuffix m.key "_prov" = true)
    (hseg : (goSplit '_' m.key).headD "" = w.key)
    (hw : goHasSuffix w.key "_prov" = false)
    (hd : w.isDelete = false) :
    txOps.find (txOps.applyTxRwset cfg serialize [] ⟨[⟨ns, ⟨reads, [m, w], []⟩, []⟩]⟩)
        ⟨ns, "", w.key⟩
      = some ⟨upsertVal, some w.value, none,
          (goSplit '_' m.value).filter (fun dk => dk != ""),
          depSnapshotOf cfg reads⟩ := by
  have h1 : txOps.applyTxRwset cfg serialize [] ⟨[⟨ns, ⟨reads, [m, w], []⟩, []⟩]⟩
      = txOps.applyKVWriteWithDep [] ns "" w
          (depsLookup (buildDeps [m, w]) w.key) (depSnapshotOf cfg reads) := by
    simp [txOps.applyTxRwset, txOps.applyNsRwSet, hlin, hm, hw]
  have h2 : buildDeps [m, w]
      = [((goSplit '_' m.key).headD "",
          (goSplit '_' m.value).filter (fun dk => dk != ""))] := by
    simp [buildDeps, hm, hw, depsInsert]
  have h3 : depsLookup (buildDeps [m, w]) w.key
      = (goSplit '_' m.value).filter (fun dk => dk != "") := by
    rw [h2, hseg]
    simp [depsLookup]
  rw [h1, h3]
  simp [txOps.applyKVWriteWithDep, hd, txOps.upsertWithDep, txOps.getOrCreateKeyEntry,
    txOps.modifyEntry, txOps.find, keyOps.empty, upsertVal]

/-- Witness for the amended C7: the concrete provenance scenario with
marker x_prov carrying y_z_ and an OCC read at block 7. -/
theorem provenance_deps_first_segment_witness :
    txOps.find (txOps.applyTxRwset ⟨true, true⟩ serOk []
        ⟨[⟨"n", ⟨[⟨"x", some ⟨7, 0⟩⟩], [⟨"x_prov", "y_z_", false⟩, ⟨"x", "v", false⟩],
          []⟩, []⟩]⟩) ⟨"n", "", "x"⟩
      = some ⟨upsertVal, some "v", none, ["y", "z"], 7⟩ :=
  provenance_deps_first_segment ⟨true, true⟩ serOk "n" [⟨"x", some ⟨7, 0⟩⟩]
    ⟨"x_prov", "y_z_", false⟩ ⟨"x", "v", false⟩ rfl (by decide) (by decide)
    (by decide) rfl

/-- Claim C8 counterexample: in provenance mode a metadata write on the key
x_prov is not filtered, and when the key exists in the staging buffer the
merged entry for x_prov survives into the prepareTxOps output. -/
theorem prov_suffix_metadata_write_counterexample :
    prepareTxOps ⟨true, false⟩ serOk rw8 pu1 db0
      = Except.ok [(⟨"n", "", "x_prov"⟩, ⟨metadataDelete, some "v0", none, [], 0⟩)]
    ∧ goHasSuffix "x_prov" "_prov" = true := ⟨rfl, by decide⟩

/-- Claim C8 as amended: in provenance mode the suffix discipline holds for
the value-write stream: when the RWSet carries no metadata writes and no
hashed collection sets, no composite key of the prepareTxOps output ends in
the marker suffix. -/
theorem prov_suffix_discipline_writes_only
    (cfg : LocalConfig) (serialize : List KVMetadataEntry → Except String String)
    (rwset : TxRwSet) (pu : publicAndHashUpdates) (db : DB) (out : txOps)
    (e : compositeKey × keyOps)
    (hlin : cfg.lineageSupported = true)
    (hshape : ∀ nsrw ∈ rwset.nsRwSets,
      nsrw.kvRwSet.metadataWrites = [] ∧ nsrw.collHashedRwSets = [])
    (hok : prepareTxOps cfg serialize rwset pu db = Except.ok out)
    (he : e ∈ out) :
    goHasSuffix e.1.key "_prov" = false := by
  unfold prepareTxOps at hok
  obtain ⟨keyop, hk⟩ := prepareTxOpsLoop_mem hok e he
  exact txOps.applyTxRwset_keys_prov cfg serialize rwset hlin hshape (e.1, keyop) hk

/-- Witness for the amended C8 on a marker-plus-real-write RWSet. -/
theorem prov_suffix_discipline_writes_only_witness :
    goHasSuffix "k" "_prov" = false :=
  prov_suffix_discipline_writes_only ⟨true, false⟩ serOk rw8b pu0 db0
    [(⟨"n", "", "k"⟩, ⟨1, some "v", none, ["y"], maxUint64⟩)]
    (⟨"n", "", "k"⟩, ⟨1, some "v", none, ["y"], maxUint64⟩)
    rfl (by decide) rfl (by decide)

/-- Claim C9: depSnapshot starts at MaxUint64; without OCC it stays there
whatever the reads; with OCC the last read wins, its missing version
resetting to MaxUint64; and without the provenance extension every
projected entry keeps the zero values of deps and depSnapshot. -/
theorem depSnapshot_semantics (cfg : LocalConfig) :
    depSnapshotOf cfg [] = maxUint64
    ∧ (cfg.isOCC = false → ∀ reads : List KVRead, depSnapshotOf cfg reads = maxUint64)
    ∧ (cfg.isOCC = true → ∀ (reads : List KVRead) (r : KVRead),
        depSnapshotOf cfg (reads ++ [r]) =
          match r.version with
          | none => maxUint64
          | some v => v.blockNum)
    ∧ (cfg.lineageSupported = false →
        ∀ (serialize : List KVMetadataEntry → Except String String) (rwset : TxRwSet)
          (ck : compositeKey) (keyops : keyOps),
          (ck, keyops) ∈ txOps.applyTxRwset cfg serialize [] rwset →
          keyops.deps = [] ∧ keyops.depSnapshot = 0) := by
  refine ⟨rfl, ?_, ?_, ?_⟩
  · intro h reads
    exact depSnapshotOf_notOCC cfg h reads maxUint64
  · intro h reads r
    unfold depSnapshotOf
    rw [List.foldl_append, List.foldl_cons, List.foldl_nil]
    simp only [h, if_true]
  · intro h serialize rwset ck keyops hmem
    exact txOps.applyTxRwset_zeroDeps cfg serialize rwset h (ck, keyops) hmem

/-- Witness for C9 covering each conjunct at concrete inputs. -/
theorem depSnapshot_semantics_witness :
    depSnapshotOf ⟨true, false⟩ [⟨"x", some ⟨9, 0⟩⟩] = maxUint64
    ∧ depSnapshotOf ⟨true, true⟩ ([⟨"x", some ⟨3, 0⟩⟩] ++ [⟨"y", some ⟨7, 0⟩⟩]) = 7
    ∧ ((⟨1, some "v", none, [], 0⟩ : keyOps).deps = []
        ∧ (⟨1, some "v", none, [], 0⟩ : keyOps).depSnapshot = 0) :=
  ⟨(depSnapshot_semantics ⟨true, false⟩).2.1 rfl [⟨"x", some ⟨9, 0⟩⟩],
   (depSnapshot_semantics ⟨true, true⟩).2.2.1 rfl [⟨"x", some ⟨3, 0⟩⟩] ⟨"y", some ⟨7, 0⟩⟩,
   (depSnapshot_semantics ⟨false, false⟩).2.2.2 rfl serOk rw9 ⟨"n", "", "k"⟩
     ⟨1, some "v", none, [], 0⟩ (by decide)⟩

/-- Claim C10: when the provenance extension is off, a write whose key ends
in the marker suffix is recorded like any other write, as an ordinary
upsert or delete entry under its namespace and key. -/
theorem lineage_off_prov_writes_ordinary
    (cfg : LocalConfig) (serialize : List KVMetadataEntry → Except String String)
    (ns : String) (reads : List KVRead) (w : KVWrite)
    (hlin : cfg.lineageSupported = false)
    (hsuf : goHasSuffix w.key "_prov" = true) :
    txOps.find (txOps.applyTxRwset cfg serialize [] ⟨[⟨ns, ⟨reads, [w], []⟩, []⟩]⟩)
        ⟨ns, "", w.key⟩
      = some (if w.isDelete then ⟨keyDelete, none, none, [], 0⟩
              else ⟨upsertVal, some w.value, none, [], 0⟩) := by
  by_cases hd : w.isDelete <;>
    simp [txOps.applyTxRwset, txOps.applyNsRwSet, hlin, txOps.applyKVWrite, hd,
      txOps.upsert, txOps.delete, txOps.getOrCreateKeyEntry, txOps.modifyEntry,
      txOps.find, keyOps.empty, upsertVal, keyDelete]

/-- Witness for C10: the marker-suffixed key x_prov is stored as a plain
upsert when the extension is off. -/
theorem lineage_off_prov_writes_ordinary_witness :
    txOps.find (txOps.applyTxRwset ⟨false, false⟩ serOk []
        ⟨[⟨"n", ⟨[], [⟨"x_prov", "vv", false⟩], []⟩, []⟩]⟩) ⟨"n", "", "x_prov"⟩
      = some ⟨upsertVal, some "vv", none, [], 0⟩ :=
  lineage_off_prov_writes_ordinary ⟨false, false⟩ serOk "n" [] ⟨"x_prov", "vv", false⟩
    rfl (by decide)

end TxValidation
